import Mathlib

/-!
Verification development for the `signature` package (molecule signatures and
signature alphabets).  The repository ships the algorithmic core in the
`molsig` package (`molsig/Signature.py`, `molsig/SignatureAlphabet.py`); the
available sources here are the two notebooks (with recorded outputs), the
README and the CI configuration, so the core operations are modelled from the
specification and validated against the outputs recorded in the notebooks and
README.  Strings are modelled as Lean `String` / `List Char`; the canonical
string grammar (`bits ## root [&& BOND <> nbr]*`, molecule parts joined by
`" .. "`) follows the spec and the recorded exports.
-/

/-- Tests whether `pat` is an initial segment of the second list (used to
locate separator occurrences during splitting, as Python `str.split` does). -/
def leadsWith : List Char → List Char → Bool
  | [], _ => true
  | _ :: _, [] => false
  | a :: as, b :: bs => if a = b then leadsWith as bs else false

/-- Fuel-driven greedy left-to-right split on a separator, the model of
Python `str.split(sep)`.  The fuel argument makes the recursion structural so
that the kernel can evaluate it; `splitSep` instantiates the fuel with the
length of the input. -/
def splitSepFuel (sep : List Char) : Nat → List Char → List (List Char)
  | _, [] => [[]]
  | 0, l => [l]
  | fuel + 1, c :: cs =>
    if leadsWith sep (c :: cs) then
      [] :: splitSepFuel sep fuel (List.drop (sep.length - 1) cs)
    else
      match splitSepFuel sep fuel cs with
      | [] => [[c]]
      | r :: rs => (c :: r) :: rs

/-- Greedy split of a character list on a separator (Python `str.split`). -/
def splitSep (sep l : List Char) : List (List Char) :=
  splitSepFuel sep l.length l

/-- Interleaves a separator between parts (Python `sep.join(parts)`). -/
def joinSep (sep : List Char) : List (List Char) → List Char
  | [] => []
  | [p] => p
  | p :: ps => p ++ sep ++ joinSep sep ps

/-- Decimal digit characters, by value; values ≥ 9 all map to `9` (only
values below ten are ever used). -/
def digitChar (d : Nat) : Char :=
  if d = 0 then '0' else if d = 1 then '1' else if d = 2 then '2'
  else if d = 3 then '3' else if d = 4 then '4' else if d = 5 then '5'
  else if d = 6 then '6' else if d = 7 then '7' else if d = 8 then '8' else '9'

/-- Numeric value of a decimal digit character, `none` on anything else. -/
def digitVal? (c : Char) : Option Nat :=
  if c = '0' then some 0 else if c = '1' then some 1 else if c = '2' then some 2
  else if c = '3' then some 3 else if c = '4' then some 4 else if c = '5' then some 5
  else if c = '6' then some 6 else if c = '7' then some 7 else if c = '8' then some 8
  else if c = '9' then some 9 else none

/-- Big-endian decimal digits of a positive number, fuel-driven so the
recursion is structural. -/
def natCharsAux : Nat → Nat → List Char
  | 0, _ => []
  | fuel + 1, n => if n = 0 then [] else natCharsAux fuel (n / 10) ++ [digitChar (n % 10)]

/-- Decimal rendering of a natural number (Python `str(n)`). -/
def natToChars (n : Nat) : List Char :=
  if n = 0 then ['0'] else natCharsAux n n

/-- Accumulating decimal parser; fails on any non-digit character. -/
def parseNatAux : List Char → Nat → Option Nat
  | [], acc => some acc
  | c :: cs, acc =>
    match digitVal? c with
    | some d => parseNatAux cs (acc * 10 + d)
    | none => none

/-- Decimal parser for a non-empty all-digit character list (Python
`int(s)`, restricted to the unsigned decimal inputs the codec produces). -/
def parseNat (l : List Char) : Option Nat :=
  match l with
  | [] => none
  | _ => parseNatAux l 0

/-- Sequences an option-valued function over a list, failing if any element
fails (the semantics of a Python list comprehension over fallible parses). -/
def allParse (f : α → Option β) : List α → Option (List β)
  | [] => some []
  | a :: as =>
    match f a with
    | some b => (allParse f as).map (b :: ·)
    | none => none

/-- Three-way comparison on naturals. -/
def cmpNat (a b : Nat) : Ordering :=
  if a < b then .lt else if b < a then .gt else .eq

/-- Three-way comparison on characters, by code point. -/
def cmpChar (a b : Char) : Ordering :=
  cmpNat a.toNat b.toNat

/-- Lexicographic lift of a comparison to lists. -/
def cmpList (c : α → α → Ordering) : List α → List α → Ordering
  | [], [] => .eq
  | [], _ :: _ => .lt
  | _ :: _, [] => .gt
  | a :: as, b :: bs =>
    match c a b with
    | .eq => cmpList c as bs
    | o => o

/-- Lexicographic comparison of strings by their character data (the
comparison Python uses on `str`). -/
def cmpStr (a b : String) : Ordering :=
  cmpList cmpChar a.data b.data

/-- Lexicographic lift of two comparisons to pairs (Python tuple order). -/
def cmpProd (cf : α → α → Ordering) (cs : β → β → Ordering) (p q : α × β) : Ordering :=
  match cf p.1 q.1 with
  | .eq => cs p.2 q.2
  | o => o

/-- Modelled from the spec: the `AtomSignature` value of
`molsig/Signature.py` (not shipped in this source tree).  Fields follow the
repr recorded in `signature-basics.ipynb`: the `morgans` bit tuple, the
canonical `root` pattern, the `root_minus` pattern (the literal string
`"None"` until neighbors are computed) and the `(bond, neighbor-pattern)`
list, empty until expansion. -/
structure AtomSignature where
  morgans : List Nat
  root : String
  root_minus : String
  neighbors : List (String × String)
deriving DecidableEq

/-- Separator between the bit tuple and the pattern (`" ## "`). -/
def sepHH : List Char := [' ', '#', '#', ' ']

/-- Separator between pattern and neighbor segments (`" && "`). -/
def sepAmp : List Char := [' ', '&', '&', ' ']

/-- Separator between a bond tag and a neighbor pattern (`" <> "`). -/
def sepGt : List Char := [' ', '<', '>', ' ']

/-- Separator between atomic signatures of a molecule (`" .. "`). -/
def sepDots : List Char := [' ', '.', '.', ' ']

/-- Separator between bits of a `morgans` tuple (`"-"`). -/
def sepDash : List Char := ['-']

/-- Rendering of a `morgans` tuple, bits joined by dashes. -/
def morgansChars (ms : List Nat) : List Char :=
  joinSep sepDash (ms.map natToChars)

/-- Rendering of one `(bond, neighbor-pattern)` segment, `BOND <> pattern`. -/
def nbrChars (p : String × String) : List Char :=
  p.1.data ++ sepGt ++ p.2.data

/-- Pattern part of an atomic signature export: the root pattern alone, or,
with neighbors, the `root_minus` pattern followed by the neighbor segments
joined by `" && "` (the form recorded in the notebooks). -/
def atomBodyChars (a : AtomSignature) (nbrs : Bool) : List Char :=
  if nbrs then joinSep sepAmp (a.root_minus.data :: a.neighbors.map nbrChars)
  else a.root.data

/-- Character data of an atomic signature export, `bits ## body`. -/
def atomChars (a : AtomSignature) (nbrs : Bool) : List Char :=
  morgansChars a.morgans ++ sepHH ++ atomBodyChars a nbrs

/-- Modelled from the spec: `AtomSignature.to_string(neighbors)` of
`molsig/Signature.py`. -/
def AtomSignature.to_string (a : AtomSignature) (nbrs : Bool) : String :=
  String.mk (atomChars a nbrs)

/-- Parser for a `morgans` rendering: dash-separated decimal bits. -/
def parseMorgans (l : List Char) : Option (List Nat) :=
  allParse parseNat (splitSep sepDash l)

/-- Parser for one neighbor segment `BOND <> pattern`. -/
def parseNbr (l : List Char) : Option (String × String) :=
  match splitSep sepGt l with
  | [b, n] => some (String.mk b, String.mk n)
  | _ => none

/-- Modelled from the spec: `AtomSignature.from_string` of
`molsig/Signature.py`; tolerates the with- and without-neighbors forms and
rejects malformed input with `none`. -/
def AtomSignature.from_string (s : String) : Option AtomSignature :=
  match splitSep sepHH s.data with
  | [bits, body] =>
    match parseMorgans bits, splitSep sepAmp body with
    | some ms, root :: segs =>
      match allParse parseNbr segs with
      | some nbrs => some ⟨ms, String.mk root, "None", nbrs⟩
      | none => none
    | _, _ => none
  | _ => none

/-- Canonical comparison key of an atomic signature: the
`(morgans, root, root_minus, neighbors)` tuple, as nested pairs. -/
def sigKey (a : AtomSignature) : (List Nat × String) × (String × List (String × String)) :=
  ((a.morgans, a.root), (a.root_minus, a.neighbors))

/-- Lexicographic comparison on signature keys, `morgans` first (numeric),
then the three string components (Python tuple comparison). -/
def keyCmp : (List Nat × String) × (String × List (String × String)) →
    (List Nat × String) × (String × List (String × String)) → Ordering :=
  cmpProd (cmpProd (cmpList cmpNat) cmpStr) (cmpProd cmpStr (cmpList (cmpProd cmpStr cmpStr)))

/-- Three-way comparison of atomic signatures by their canonical key. -/
def sigCmp (a b : AtomSignature) : Ordering :=
  keyCmp (sigKey a) (sigKey b)

/-- Canonical (total) order on atomic signatures. -/
def sigLE (a b : AtomSignature) : Prop :=
  sigCmp a b ≠ .gt

instance : DecidableRel sigLE :=
  fun a b => inferInstanceAs (Decidable (sigCmp a b ≠ .gt))

/-- Order on `(bond, pattern)` pairs used to canonicalize neighbor lists and
environment levels. -/
def pairLE (p q : String × String) : Prop :=
  cmpProd cmpStr cmpStr p q ≠ .gt

instance : DecidableRel pairLE :=
  fun p q => inferInstanceAs (Decidable (cmpProd cmpStr cmpStr p q ≠ .gt))

/-- Order on strings by the character comparison (used to state the sorting
claims about root strings). -/
def strLE (a b : String) : Prop :=
  cmpStr a b ≠ .gt

instance : DecidableRel strLE :=
  fun a b => inferInstanceAs (Decidable (cmpStr a b ≠ .gt))

/-- Modelled from the spec: one level of an extracted environment is built
from the set of `(bond, neighbor)` descriptor pairs reached at that radius,
sorted by their canonical textual rendering so that traversal order never
leaks into output (`Signature.py` extractor, §4.1 of the spec). -/
def mkLevel (pairs : List (String × String)) : List (String × String) :=
  List.insertionSort pairLE pairs

/-- Per-atom data handed to signature construction by the external graph
provider and fingerprint oracle: element symbol, the atom's fingerprint-bit
tuple and its canonical root pattern. -/
structure AtomInput where
  element : String
  morgans : List Nat
  root : String
deriving DecidableEq

/-- Modelled from the spec: a freshly built atomic signature
(`AtomSignature.__init__` in `molsig/Signature.py`): `root_minus` is the
literal string `"None"` and `neighbors` is empty, as recorded in
`signature-basics.ipynb`. -/
def mkFresh (i : AtomInput) : AtomSignature :=
  ⟨i.morgans, i.root, "None", []⟩

/-- Modelled from the spec: the `MoleculeSignature` value of
`molsig/Signature.py`, the canonically ordered collection of atomic
signatures of a molecule. -/
structure MoleculeSignature where
  atoms : List AtomSignature
deriving DecidableEq

/-- Modelled from the spec: `MoleculeSignature.__init__` — one atomic
signature per heavy atom, sorted into canonical order (by the recorded
outputs, ascending on the full `(morgans, root, …)` key). -/
def MoleculeSignature.fromAtoms (l : List AtomInput) : MoleculeSignature :=
  ⟨List.insertionSort sigLE (l.map mkFresh)⟩

/-- Modelled from the spec: `MoleculeSignature.to_string(neighbors)`, the
atomic exports joined by `" .. "`. -/
def MoleculeSignature.to_string (m : MoleculeSignature) (nbrs : Bool) : String :=
  String.mk (joinSep sepDots (m.atoms.map (fun a => atomChars a nbrs)))

/-- Modelled from the spec: `MoleculeSignature.to_list(neighbors)`. -/
def MoleculeSignature.to_list (m : MoleculeSignature) (nbrs : Bool) : List String :=
  m.atoms.map (fun a => a.to_string nbrs)

/-- Modelled from the spec: `MoleculeSignature.from_string`, splitting on
`" .. "` and delegating each part to the atomic parser. -/
def MoleculeSignature.from_string (s : String) : Option MoleculeSignature :=
  (allParse (fun p => AtomSignature.from_string (String.mk p)) (splitSep sepDots s.data)).map
    MoleculeSignature.mk

/-- Well-formedness of a freshly built atomic signature: a non-empty bit
tuple, a root pattern free of spaces and dots (true of every SMARTS-style
pattern the extractor emits), `root_minus` still `"None"` and no neighbors. -/
def freshWF (a : AtomSignature) : Prop :=
  a.morgans ≠ [] ∧ (∀ c ∈ a.root.data, c ≠ ' ' ∧ c ≠ '.') ∧
    a.root_minus = "None" ∧ a.neighbors = []

instance (a : AtomSignature) : Decidable (freshWF a) :=
  inferInstanceAs (Decidable (_ ∧ _ ∧ _ ∧ _))

/-- Per-atom data for neighbor expansion, as resolved against the full
molecule: the bit tuple, the full-radius root pattern, the radius `R-1`
pattern and the incident bonds (bond tag and index of the bonded atom). -/
structure CtxAtom where
  morgans : List Nat
  root : String
  minusRoot : String
  bonds : List (String × Nat)
deriving DecidableEq

/-- Modelled from the spec: `AtomSignature.post_compute_neighbors` resolved
against a molecule context — a one-level, non-recursive expansion recording,
for each bond incident to the root atom, the bond tag and the bonded atom's
reduced-radius pattern, the list sorted canonically (the form recorded in
`signature-basics.ipynb`). -/
def expandNbr (ctx : List CtxAtom) (t : CtxAtom) : AtomSignature :=
  ⟨t.morgans, t.root, t.minusRoot,
    List.insertionSort pairLE
      (t.bonds.filterMap fun bj => (ctx[bj.2]?).map fun u => (bj.1, u.minusRoot))⟩

/-- Modelled from the spec: `MoleculeSignature.post_compute_neighbors`,
expanding every contained atomic signature against the molecule. -/
def post_compute_neighbors (ctx : List CtxAtom) : List AtomSignature :=
  ctx.map (expandNbr ctx)

/-- Error raised on alphabet operations across differing configurations. -/
inductive AlphabetError where
  | incompatible
deriving DecidableEq

/-- Modelled from the spec: the `SignatureAlphabet` of
`molsig/SignatureAlphabet.py` — the configuration triple plus the collection
of canonical atomic-signature strings observed (each string carries its
fingerprint bits as its prefix, giving the bit-to-signatures mapping); the
collection is modelled as the finite set of entries. -/
structure SignatureAlphabet where
  radius : Nat
  nBits : Nat
  use_stereo : Bool
  Dict : Finset String
deriving DecidableEq

/-- Modelled from the spec: an empty alphabet of a given configuration. -/
def emptyAlphabet (r n : Nat) (s : Bool) : SignatureAlphabet :=
  ⟨r, n, s, ∅⟩

/-- Modelled from the spec: `compatible_alphabets` — configurations must be
identical field for field. -/
def compatible_alphabets (a b : SignatureAlphabet) : Bool :=
  a.radius == b.radius && a.nBits == b.nBits && a.use_stereo == b.use_stereo

/-- Modelled from the spec: `merge_alphabets` — fails on incompatible
configurations, otherwise unions the entry sets under the common
configuration. -/
def merge_alphabets (a b : SignatureAlphabet) : Except AlphabetError SignatureAlphabet :=
  if compatible_alphabets a b then
    .ok ⟨a.radius, a.nBits, a.use_stereo, a.Dict ∪ b.Dict⟩
  else
    .error .incompatible

/-- Modelled from the spec: `SignatureAlphabet.fill` — for each molecule,
build its signature and insert every atomic-signature string into the
alphabet. -/
def SignatureAlphabet.fill (A : SignatureAlphabet) (mols : List MoleculeSignature) :
    SignatureAlphabet :=
  { A with Dict := mols.foldl (fun d m => d ∪ (m.to_list false).toFinset) A.Dict }

/-- Modelled from the spec: the alphabet length reported by `print_out`. -/
def SignatureAlphabet.size (A : SignatureAlphabet) : Nat :=
  A.Dict.card

/-- Lawfulness of a three-way comparison: it detects equality exactly,
swaps under argument exchange, and its strict part is transitive. -/
structure LawfulCmp (c : α → α → Ordering) : Prop where
  eq_iff : ∀ {a b : α}, c a b = .eq ↔ a = b
  swap_eq : ∀ a b : α, (c a b).swap = c b a
  lt_trans : ∀ {a b d : α}, c a b = .lt → c b d = .lt → c a d = .lt

/-- Methanol, SMILES `CO`: the carbon input, as recorded in
`signature-basics.ipynb` (the `:1`-tagged pattern atom is the carbon; its
bit tuple is the single bit `1057`). -/
def coCarbonInput : AtomInput :=
  ⟨"C", [1057], "[O;H1;h1;D1;X2]-[C;H3;h3;D1;X4:1]"⟩

/-- Methanol, SMILES `CO`: the oxygen input, as recorded in
`signature-basics.ipynb` (bit tuple `807-1155`, the `:1` tag on the oxygen
pattern atom). -/
def coOxygenInput : AtomInput :=
  ⟨"O", [807, 1155], "[C;H3;h3;D1;X4]-[O;H1;h1;D1;X2:1]"⟩

/-- Methanol atom inputs, in SMILES atom order. -/
def coInputs : List AtomInput :=
  [coCarbonInput, coOxygenInput]

/-- Methyl formate, SMILES `COC=O`, atom inputs in SMILES atom order, roots
and bit tuples as recorded in `signature-basics.ipynb`. -/
def cocoInputs : List AtomInput :=
  [⟨"C", [1057, 841], "[C;H1;h1;D2;X3]-[O;H0;h0;D2;X2]-[C;H3;h3;D1;X4:1]"⟩,
   ⟨"O", [695, 1874], "[C;H3;h3;D1;X4]-[O;H0;h0;D2;X2:1]-[C;H1;h1;D2;X3]=[O;H0;h0;D1;X1]"⟩,
   ⟨"C", [694, 287, 1276], "[C;H3;h3;D1;X4]-[O;H0;h0;D2;X2]-[C;H1;h1;D2;X3:1]=[O;H0;h0;D1;X1]"⟩,
   ⟨"O", [650, 1004], "[O;H0;h0;D2;X2]-[C;H1;h1;D2;X3]=[O;H0;h0;D1;X1:1]"⟩]

/-- Ethanol, SMILES `CCO`, atom inputs as recorded in the README. -/
def ccoInputs : List AtomInput :=
  [⟨"C", [1057, 294], "[O;H1;h1;D1;X2]-[C;H2;h2;D2;X4]-[C;H3;h3;D1;X4:1]"⟩,
   ⟨"C", [80, 1410], "[C;H3;h3;D1;X4]-[C;H2;h2;D2;X4:1]-[O;H1;h1;D1;X2]"⟩,
   ⟨"O", [807, 222], "[C;H3;h3;D1;X4]-[C;H2;h2;D2;X4]-[O;H1;h1;D1;X2:1]"⟩]

/-- Methyl formate neighbor-expansion context, indexed in the canonical
order of `signature-basics.ipynb`: the carbonyl oxygen, the carbonyl carbon,
the ester oxygen and the methyl carbon, with the reduced-radius patterns and
incident bonds read off the recorded with-neighbors exports. -/
def cocoCtx : List CtxAtom :=
  [⟨[650, 1004], "[O;H0;h0;D2;X2]-[C;H1;h1;D2;X3]=[O;H0;h0;D1;X1:1]",
    "[C;H1;h1;D2;X3]=[O;H0;h0;D1;X1:1]", [("DOUBLE", 1)]⟩,
   ⟨[694, 287, 1276], "[C;H3;h3;D1;X4]-[O;H0;h0;D2;X2]-[C;H1;h1;D2;X3:1]=[O;H0;h0;D1;X1]",
    "[O;H0;h0;D1;X1]=[C;H1;h1;D2;X3:1]-[O;H0;h0;D2;X2]", [("DOUBLE", 0), ("SINGLE", 2)]⟩,
   ⟨[695, 1874], "[C;H3;h3;D1;X4]-[O;H0;h0;D2;X2:1]-[C;H1;h1;D2;X3]=[O;H0;h0;D1;X1]",
    "[C;H1;h1;D2;X3]-[O;H0;h0;D2;X2:1]-[C;H3;h3;D1;X4]", [("SINGLE", 1), ("SINGLE", 3)]⟩,
   ⟨[1057, 841], "[C;H1;h1;D2;X3]-[O;H0;h0;D2;X2]-[C;H3;h3;D1;X4:1]",
    "[O;H0;h0;D2;X2]-[C;H3;h3;D1;X4:1]", [("SINGLE", 2)]⟩]

/-- Alphabet built by `fill` over the single molecule methanol at the
configuration of the end-to-end scenario (radius 2, 2048 bits, no stereo). -/
def coFilled : SignatureAlphabet :=
  (emptyAlphabet 2 2048 false).fill [MoleculeSignature.fromAtoms coInputs]

/-- Alphabet fixture used to instantiate the merge laws. -/
def alphaX : SignatureAlphabet := ⟨2, 2048, true, {"x", "y"}⟩

/-- Second alphabet fixture with the same configuration. -/
def alphaY : SignatureAlphabet := ⟨2, 2048, true, {"y", "z"}⟩

/-- Third alphabet fixture with the same configuration. -/
def alphaW : SignatureAlphabet := ⟨2, 2048, true, {"w"}⟩

/-- Alphabet fixture with a differing radius. -/
def alphaZ : SignatureAlphabet := ⟨1, 2048, true, ∅⟩

theorem splitSepFuel_nil (sep : List Char) (fuel : Nat) : splitSepFuel sep fuel [] = [[]] := by
  cases fuel <;> rfl

theorem leadsWith_append (p rest : List Char) : leadsWith p (p ++ rest) = true := by
  induction p with
  | nil => rfl
  | cons a as ih => simp [leadsWith, ih]

theorem leadsWith_cons_ne {a b : Char} (h : a ≠ b) (as t : List Char) :
    leadsWith (a :: as) (b :: t) = false := by
  simp [leadsWith, h]

theorem splitSepFuel_congr (sep : List Char) :
    ∀ (f g : Nat) (l : List Char), l.length ≤ f → l.length ≤ g →
      splitSepFuel sep f l = splitSepFuel sep g l := by
  intro f
  induction f with
  | zero =>
    intro g l hf _
    have : l = [] := List.length_eq_zero.mp (Nat.le_zero.mp hf)
    subst this
    simp [splitSepFuel_nil]
  | succ f ih =>
    intro g l hf hg
    cases l with
    | nil => simp [splitSepFuel_nil]
    | cons c cs =>
      cases g with
      | zero => simp at hg
      | succ g =>
        simp only [splitSepFuel]
        by_cases hp : leadsWith sep (c :: cs) = true
        · simp only [hp, if_true]
          have hlen : (List.drop (sep.length - 1) cs).length ≤ cs.length := by
            simp [List.length_drop]
          have h1 : (List.drop (sep.length - 1) cs).length ≤ f :=
            le_trans hlen (by simpa using Nat.lt_succ_iff.mp (Nat.lt_of_lt_of_le (Nat.lt_succ_self _) hf))
          have h2 : (List.drop (sep.length - 1) cs).length ≤ g :=
            le_trans hlen (by simpa using Nat.lt_succ_iff.mp (Nat.lt_of_lt_of_le (Nat.lt_succ_self _) hg))
          rw [ih _ _ h1 h2]
        · simp only [hp, if_false]
          have h1 : cs.length ≤ f := by simpa using hf
          have h2 : cs.length ≤ g := by simpa using hg
          rw [ih _ _ h1 h2]
          simp

theorem splitSepFuel_scanA (b : Char) (bs rest : List Char) :
    ∀ (p : List Char) (k : Nat), (∀ c ∈ p, c ≠ b) →
      splitSepFuel (b :: bs) (k + p.length + 1) (p ++ (b :: bs) ++ rest)
        = p :: splitSepFuel (b :: bs) k rest := by
  intro p
  induction p with
  | nil =>
    intro k _
    show splitSepFuel (b :: bs) (k + 1) (b :: (bs ++ rest)) = _
    simp only [splitSepFuel]
    rw [show leadsWith (b :: bs) (b :: (bs ++ rest)) = true from leadsWith_append (b :: bs) rest]
    simp only [if_true, List.length_cons, Nat.add_sub_cancel]
    rw [List.drop_left]
  | cons c p' ih =>
    intro k h
    have hcb : c ≠ b := h c (by simp)
    show splitSepFuel (b :: bs) (k + p'.length + 1 + 1) (c :: (p' ++ (b :: bs) ++ rest)) = _
    simp only [splitSepFuel]
    rw [leadsWith_cons_ne (fun hh => hcb hh.symm)]
    simp only [Bool.false_eq_true, if_false]
    rw [ih k (fun x hx => h x (by simp [hx]))]

theorem splitSepFuel_lastA (b : Char) (bs : List Char) :
    ∀ (p : List Char) (fuel : Nat), p.length ≤ fuel → (∀ c ∈ p, c ≠ b) →
      splitSepFuel (b :: bs) fuel p = [p] := by
  intro p
  induction p with
  | nil => intro fuel _ _; simp [splitSepFuel_nil]
  | cons c p' ih =>
    intro fuel hlen h
    cases fuel with
    | zero => simp at hlen
    | succ fuel =>
      have hcb : c ≠ b := h c (by simp)
      simp only [splitSepFuel]
      rw [leadsWith_cons_ne (fun hh => hcb hh.symm)]
      simp only [Bool.false_eq_true, if_false]
      rw [ih fuel (by simpa using hlen) (fun x hx => h x (by simp [hx]))]

theorem splitSepFuel_scanB (b0 b1 : Char) (hne : b1 ≠ b0) (bs rest : List Char) :
    ∀ (p : List Char) (k : Nat), (∀ c ∈ p, c ≠ b1) →
      splitSepFuel (b0 :: b1 :: bs) (k + p.length + 1) (p ++ (b0 :: b1 :: bs) ++ rest)
        = p :: splitSepFuel (b0 :: b1 :: bs) k rest := by
  intro p
  induction p with
  | nil =>
    intro k _
    show splitSepFuel (b0 :: b1 :: bs) (k + 1) (b0 :: (b1 :: bs ++ rest)) = _
    simp only [splitSepFuel]
    rw [show leadsWith (b0 :: b1 :: bs) (b0 :: (b1 :: bs ++ rest)) = true from
      leadsWith_append (b0 :: b1 :: bs) rest]
    simp only [if_true, List.length_cons, Nat.add_sub_cancel]
    rw [show List.drop (bs.length + 1) (b1 :: bs ++ rest) = rest from List.drop_left (b1 :: bs) rest]
  | cons c p' ih =>
    intro k h
    have hfalse : leadsWith (b0 :: b1 :: bs) (c :: (p' ++ (b0 :: b1 :: bs) ++ rest)) = false := by
      by_cases hc : b0 = c
      · cases p' with
        | nil =>
          show leadsWith (b0 :: b1 :: bs) (c :: (b0 :: b1 :: bs ++ rest)) = false
          simp only [leadsWith, hc, if_true]
          rw [if_neg (fun hh => hne (hh.trans hc.symm))]
        | cons c' p'' =>
          have hc' : c' ≠ b1 := h c' (by simp)
          show leadsWith (b0 :: b1 :: bs) (c :: c' :: (p'' ++ (b0 :: b1 :: bs) ++ rest)) = false
          simp only [leadsWith, hc, if_true]
          rw [if_neg (fun hh => hc' hh.symm)]
      · exact leadsWith_cons_ne hc _ _
    show splitSepFuel (b0 :: b1 :: bs) (k + p'.length + 1 + 1)
        (c :: (p' ++ (b0 :: b1 :: bs) ++ rest)) = _
    simp only [splitSepFuel]
    rw [hfalse]
    simp only [Bool.false_eq_true, if_false]
    rw [ih k (fun x hx => h x (by simp [hx]))]

theorem splitSepFuel_lastB (b0 b1 : Char) (bs : List Char) :
    ∀ (p : List Char) (fuel : Nat), p.length ≤ fuel → (∀ c ∈ p, c ≠ b1) →
      splitSepFuel (b0 :: b1 :: bs) fuel p = [p] := by
  intro p
  induction p with
  | nil => intro fuel _ _; simp [splitSepFuel_nil]
  | cons c p' ih =>
    intro fuel hlen h
    cases fuel with
    | zero => simp at hlen
    | succ fuel =>
      have hfalse : leadsWith (b0 :: b1 :: bs) (c :: p') = false := by
        by_cases hc : b0 = c
        · cases p' with
          | nil => simp [leadsWith, hc]
          | cons c' p'' =>
            have hc' : c' ≠ b1 := h c' (by simp)
            simp only [leadsWith, hc, if_true]
            rw [if_neg (fun hh => hc' hh.symm)]
        · exact leadsWith_cons_ne hc _ _
      simp only [splitSepFuel]
      rw [hfalse]
      simp only [Bool.false_eq_true, if_false]
      rw [ih fuel (by simpa using hlen) (fun x hx => h x (by simp [hx]))]

theorem splitSep_singleA (b : Char) (bs p : List Char) (h : ∀ c ∈ p, c ≠ b) :
    splitSep (b :: bs) p = [p] :=
  splitSepFuel_lastA b bs p p.length le_rfl h

theorem splitSep_joinA (b : Char) (bs : List Char) :
    ∀ parts, parts ≠ [] → (∀ p ∈ parts, ∀ c ∈ p, c ≠ b) →
      splitSep (b :: bs) (joinSep (b :: bs) parts) = parts := by
  intro parts
  induction parts with
  | nil => intro h _; exact absurd rfl h
  | cons p ps ih =>
    intro _ h
    cases ps with
    | nil => exact splitSep_singleA b bs p (h p (by simp))
    | cons q qs =>
      have hjoin : joinSep (b :: bs) (p :: q :: qs) = p ++ (b :: bs) ++ joinSep (b :: bs) (q :: qs) :=
        rfl
      rw [splitSep, hjoin]
      have hlen : (p ++ (b :: bs) ++ joinSep (b :: bs) (q :: qs)).length
          = (bs.length + (joinSep (b :: bs) (q :: qs)).length) + p.length + 1 := by
        simp [List.length_append]
        omega
      rw [hlen, splitSepFuel_scanA b bs _ p _ (h p (by simp))]
      have hrest : splitSepFuel (b :: bs) (bs.length + (joinSep (b :: bs) (q :: qs)).length)
          (joinSep (b :: bs) (q :: qs)) = splitSep (b :: bs) (joinSep (b :: bs) (q :: qs)) := by
        rw [splitSep]
        exact splitSepFuel_congr _ _ _ _ (by omega) le_rfl
      rw [hrest, ih (by simp) (fun x hx => h x (by simp [hx]))]

theorem splitSep_singleB (b0 b1 : Char) (bs p : List Char) (h : ∀ c ∈ p, c ≠ b1) :
    splitSep (b0 :: b1 :: bs) p = [p] :=
  splitSepFuel_lastB b0 b1 bs p p.length le_rfl h

theorem splitSep_joinB (b0 b1 : Char) (hne : b1 ≠ b0) (bs : List Char) :
    ∀ parts, parts ≠ [] → (∀ p ∈ parts, ∀ c ∈ p, c ≠ b1) →
      splitSep (b0 :: b1 :: bs) (joinSep (b0 :: b1 :: bs) parts) = parts := by
  intro parts
  induction parts with
  | nil => intro h _; exact absurd rfl h
  | cons p ps ih =>
    intro _ h
    cases ps with
    | nil => exact splitSep_singleB b0 b1 bs p (h p (by simp))
    | cons q qs =>
      have hjoin : joinSep (b0 :: b1 :: bs) (p :: q :: qs)
          = p ++ (b0 :: b1 :: bs) ++ joinSep (b0 :: b1 :: bs) (q :: qs) := rfl
      rw [splitSep, hjoin]
      have hlen : (p ++ (b0 :: b1 :: bs) ++ joinSep (b0 :: b1 :: bs) (q :: qs)).length
          = ((bs.length + 1) + (joinSep (b0 :: b1 :: bs) (q :: qs)).length) + p.length + 1 := by
        simp [List.length_append]
        omega
      rw [hlen, splitSepFuel_scanB b0 b1 hne bs _ p _ (h p (by simp))]
      have hrest : splitSepFuel (b0 :: b1 :: bs)
          ((bs.length + 1) + (joinSep (b0 :: b1 :: bs) (q :: qs)).length)
          (joinSep (b0 :: b1 :: bs) (q :: qs))
          = splitSep (b0 :: b1 :: bs) (joinSep (b0 :: b1 :: bs) (q :: qs)) := by
        rw [splitSep]
        exact splitSepFuel_congr _ _ _ _ (by omega) le_rfl
      rw [hrest, ih (by simp) (fun x hx => h x (by simp [hx]))]

theorem joinSep_mem (sep : List Char) :
    ∀ (parts : List (List Char)) (c : Char), c ∈ joinSep sep parts →
      c ∈ sep ∨ ∃ p ∈ parts, c ∈ p := by
  intro parts
  induction parts with
  | nil => intro c hc; simp [joinSep] at hc
  | cons p ps ih =>
    intro c hc
    cases ps with
    | nil => exact Or.inr ⟨p, by simp, hc⟩
    | cons q qs =>
      have : c ∈ p ++ sep ++ joinSep sep (q :: qs) := hc
      rcases List.mem_append.mp this with h1 | h2
      · rcases List.mem_append.mp h1 with hp | hs
        · exact Or.inr ⟨p, by simp, hp⟩
        · exact Or.inl hs
      · rcases ih c h2 with hs | ⟨r, hr, hcr⟩
        · exact Or.inl hs
        · exact Or.inr ⟨r, by simp [hr], hcr⟩

theorem digit_spec (d : Nat) (h : d < 10) :
    digitVal? (digitChar d) = some d ∧ digitChar d ≠ '-' ∧ digitChar d ≠ ' ' ∧ digitChar d ≠ '.' := by
  interval_cases d <;> decide

theorem natCharsAux_mem :
    ∀ (fuel n : Nat) (c : Char), c ∈ natCharsAux fuel n → ∃ d, d < 10 ∧ c = digitChar d := by
  intro fuel
  induction fuel with
  | zero => intro n c hc; simp [natCharsAux] at hc
  | succ fuel ih =>
    intro n c hc
    by_cases hn : n = 0
    · simp [natCharsAux, hn] at hc
    · rw [natCharsAux, if_neg hn] at hc
      rcases List.mem_append.mp hc with h1 | h2
      · exact ih _ _ h1
      · exact ⟨n % 10, Nat.mod_lt _ (by omega), by simpa using h2⟩

theorem natToChars_mem (n : Nat) (c : Char) (hc : c ∈ natToChars n) :
    ∃ d, d < 10 ∧ c = digitChar d := by
  by_cases hn : n = 0
  · refine ⟨0, by omega, ?_⟩
    simp [natToChars, hn] at hc
    simp [hc, digitChar]
  · rw [natToChars, if_neg hn] at hc
    exact natCharsAux_mem n n c hc

theorem natCharsAux_ne_nil (n : Nat) (hn : n ≠ 0) : natCharsAux n n ≠ [] := by
  cases n with
  | zero => exact absurd rfl hn
  | succ m =>
    rw [natCharsAux, if_neg hn]
    simp

theorem parseNatAux_append (xs ys : List Char) :
    ∀ acc, parseNatAux (xs ++ ys) acc
      = match parseNatAux xs acc with
        | some a => parseNatAux ys a
        | none => none := by
  induction xs with
  | nil => intro acc; rfl
  | cons c cs ih =>
    intro acc
    show parseNatAux (c :: (cs ++ ys)) acc = _
    rw [parseNatAux]
    rw [show parseNatAux (c :: cs) acc
      = match digitVal? c with
        | some d => parseNatAux cs (acc * 10 + d)
        | none => none from rfl]
    cases hd : digitVal? c with
    | some d =>
      show parseNatAux (cs ++ ys) (acc * 10 + d) = _
      exact ih _
    | none => rfl

theorem parseNatAux_natCharsAux :
    ∀ (fuel n acc : Nat), n ≤ fuel →
      parseNatAux (natCharsAux fuel n) acc
        = some (acc * 10 ^ (natCharsAux fuel n).length + n) := by
  intro fuel
  induction fuel with
  | zero =>
    intro n acc hn
    have : n = 0 := by omega
    subst this
    simp [natCharsAux, parseNatAux]
  | succ fuel ih =>
    intro n acc hn
    by_cases hz : n = 0
    · subst hz; simp [natCharsAux, parseNatAux]
    · rw [natCharsAux, if_neg hz]
      have hdiv : n / 10 ≤ fuel := by
        have := Nat.div_lt_self (by omega : 0 < n) (by omega : 1 < 10)
        omega
      rw [parseNatAux_append, ih (n / 10) acc hdiv]
      have hmod : digitVal? (digitChar (n % 10)) = some (n % 10) :=
        (digit_spec (n % 10) (Nat.mod_lt _ (by omega))).1
      show parseNatAux [digitChar (n % 10)] (acc * 10 ^ (natCharsAux fuel (n / 10)).length + n / 10)
        = _
      rw [show parseNatAux [digitChar (n % 10)] (acc * 10 ^ (natCharsAux fuel (n / 10)).length + n / 10)
        = match digitVal? (digitChar (n % 10)) with
          | some d => parseNatAux []
              ((acc * 10 ^ (natCharsAux fuel (n / 10)).length + n / 10) * 10 + d)
          | none => none from rfl, hmod]
      show some _ = some _
      congr 1
      rw [List.length_append, List.length_cons, List.length_nil]
      rw [pow_succ]
      have hdm : n / 10 * 10 + n % 10 = n := by omega
      set A := 10 ^ (natCharsAux fuel (n / 10)).length
      calc (acc * A + n / 10) * 10 + n % 10
          = acc * (A * 10) + (n / 10 * 10 + n % 10) := by ring
        _ = acc * (A * 10) + n := by rw [hdm]

theorem parseNat_natToChars (n : Nat) : parseNat (natToChars n) = some n := by
  by_cases hn : n = 0
  · subst hn; rfl
  · rw [natToChars, if_neg hn]
    obtain ⟨x, xs, hxs⟩ : ∃ x xs, natCharsAux n n = x :: xs := by
      cases h : natCharsAux n n with
      | nil => exact absurd h (natCharsAux_ne_nil n hn)
      | cons x xs => exact ⟨x, xs, rfl⟩
    rw [hxs]
    have := parseNatAux_natCharsAux n n 0 le_rfl
    rw [hxs] at this
    rw [show parseNat (x :: xs) = parseNatAux (x :: xs) 0 from rfl, this]
    simp

theorem allParse_natToChars (ms : List Nat) :
    allParse parseNat (ms.map natToChars) = some ms := by
  induction ms with
  | nil => rfl
  | cons m ms ih =>
    show allParse parseNat (natToChars m :: ms.map natToChars) = _
    rw [allParse, parseNat_natToChars, ih]
    rfl

theorem morgansChars_mem (ms : List Nat) (c : Char) (hc : c ∈ morgansChars ms) :
    c = '-' ∨ ∃ d, d < 10 ∧ c = digitChar d := by
  rcases joinSep_mem sepDash (ms.map natToChars) c hc with hs | ⟨p, hp, hcp⟩
  · left; simpa [sepDash] using hs
  · right
    obtain ⟨n, _, rfl⟩ := List.mem_map.mp hp
    exact natToChars_mem n c hcp

theorem morgansChars_ne_space (ms : List Nat) (c : Char) (hc : c ∈ morgansChars ms) : c ≠ ' ' := by
  rcases morgansChars_mem ms c hc with rfl | ⟨d, hd, rfl⟩
  · decide
  · exact (digit_spec d hd).2.2.1

theorem morgansChars_ne_dot (ms : List Nat) (c : Char) (hc : c ∈ morgansChars ms) : c ≠ '.' := by
  rcases morgansChars_mem ms c hc with rfl | ⟨d, hd, rfl⟩
  · decide
  · exact (digit_spec d hd).2.2.2

theorem parseMorgans_morgansChars (ms : List Nat) (h : ms ≠ []) :
    parseMorgans (morgansChars ms) = some ms := by
  rw [parseMorgans, morgansChars]
  rw [show sepDash = '-' :: [] from rfl]
  rw [splitSep_joinA '-' [] (ms.map natToChars) (by simpa using h)
    (fun p hp c hc => by
      obtain ⟨n, _, rfl⟩ := List.mem_map.mp hp
      obtain ⟨d, hd, rfl⟩ := natToChars_mem n c hc
      exact (digit_spec d hd).2.1)]
  exact allParse_natToChars ms

theorem from_to_atom (a : AtomSignature) (h : freshWF a) :
    AtomSignature.from_string (a.to_string false) = some a := by
  obtain ⟨ms, rt, rm, nb⟩ := a
  obtain ⟨hms, hroot, hrm, hnb⟩ := h
  simp only at hms hroot hrm hnb
  subst hrm
  subst hnb
  have hsplit : splitSep sepHH (atomChars ⟨ms, rt, "None", []⟩ false)
      = [morgansChars ms, rt.data] := by
    rw [show atomChars ⟨ms, rt, "None", ([] : List (String × String))⟩ false
      = joinSep sepHH [morgansChars ms, rt.data] from rfl]
    rw [show sepHH = ' ' :: ['#', '#', ' '] from rfl]
    apply splitSep_joinA
    · simp
    · intro p hp c hc
      simp only [List.mem_cons, List.not_mem_nil, or_false] at hp
      rcases hp with rfl | rfl
      · exact morgansChars_ne_space ms c hc
      · exact (hroot c hc).1
  simp only [AtomSignature.to_string, AtomSignature.from_string]
  rw [hsplit]
  dsimp only
  rw [parseMorgans_morgansChars ms hms]
  rw [show sepAmp = ' ' :: ['&', '&', ' '] from rfl]
  rw [splitSep_singleA ' ' ['&', '&', ' '] rt.data (fun c hc => (hroot c hc).1)]
  rfl

theorem allParse_atoms (l : List AtomSignature) (h : ∀ a ∈ l, freshWF a) :
    allParse (fun p => AtomSignature.from_string (String.mk p))
      (l.map (fun a => atomChars a false)) = some l := by
  induction l with
  | nil => rfl
  | cons a as ih =>
    show allParse _ (atomChars a false :: as.map _) = _
    rw [allParse]
    rw [show AtomSignature.from_string (String.mk (atomChars a false))
      = AtomSignature.from_string (a.to_string false) from rfl]
    rw [from_to_atom a (h a (by simp))]
    rw [ih (fun x hx => h x (by simp [hx]))]
    rfl

theorem from_to_mol (m : MoleculeSignature) (h1 : m.atoms ≠ [])
    (h2 : ∀ a ∈ m.atoms, freshWF a) :
    MoleculeSignature.from_string (m.to_string false) = some m := by
  obtain ⟨atoms⟩ := m
  simp only at h1 h2
  have hsplit : splitSep sepDots (joinSep sepDots (atoms.map (fun a => atomChars a false)))
      = atoms.map (fun a => atomChars a false) := by
    rw [show sepDots = ' ' :: '.' :: ['.', ' '] from rfl]
    apply splitSep_joinB ' ' '.' (by decide)
    · simpa using h1
    · intro p hp c hc
      obtain ⟨a, ha, rfl⟩ := List.mem_map.mp hp
      have hc' : c ∈ morgansChars a.morgans ++ sepHH ++ atomBodyChars a false := hc
      rcases List.mem_append.mp hc' with hin | hroot
      · rcases List.mem_append.mp hin with hm | hs
        · exact morgansChars_ne_dot _ c hm
        · have : c = ' ' ∨ c = '#' := by
            simp only [sepHH, List.mem_cons, List.not_mem_nil, or_false] at hs
            tauto
          rcases this with rfl | rfl <;> decide
      · have hroot' : c ∈ a.root.data := hroot
        exact ((h2 a ha).2.1 c hroot').2
  simp only [MoleculeSignature.to_string, MoleculeSignature.from_string]
  rw [hsplit, allParse_atoms atoms h2]
  rfl

/-- C1: for every freshly built (well-formed) AtomSignature and
MoleculeSignature, `from_string (to_string ())` returns the same value — the
without-neighbors export round-trips exactly at both the atomic and the
molecular level. -/
theorem C1_signature_string_roundtrip :
    (∀ a : AtomSignature, freshWF a →
      AtomSignature.from_string (a.to_string false) = some a) ∧
    (∀ m : MoleculeSignature, m.atoms ≠ [] → (∀ a ∈ m.atoms, freshWF a) →
      MoleculeSignature.from_string (m.to_string false) = some m) :=
  ⟨from_to_atom, from_to_mol⟩

/-- C1 witness: the round trip evaluated on the methanol signatures recorded
in the notebook. -/
theorem C1_signature_string_roundtrip_witness :
    AtomSignature.from_string ((mkFresh coCarbonInput).to_string false)
        = some (mkFresh coCarbonInput) ∧
    MoleculeSignature.from_string ((MoleculeSignature.fromAtoms coInputs).to_string false)
        = some (MoleculeSignature.fromAtoms coInputs) :=
  ⟨C1_signature_string_roundtrip.1 _ (by decide),
   C1_signature_string_roundtrip.2 _ (by decide) (by decide)⟩

theorem lawful_cmpNat : LawfulCmp cmpNat := by
  refine ⟨?_, ?_, ?_⟩
  · intro a b
    unfold cmpNat
    split_ifs <;> simp <;> omega
  · intro a b
    unfold cmpNat
    split_ifs <;> simp [Ordering.swap] <;> omega
  · intro a b d h1 h2
    unfold cmpNat at h1 h2 ⊢
    split_ifs at h1 h2 ⊢ <;> simp_all <;> omega

theorem LawfulCmp.comap {c : α → α → Ordering} (h : LawfulCmp c) (f : β → α)
    (hf : ∀ x y, f x = f y → x = y) : LawfulCmp (fun x y => c (f x) (f y)) := by
  refine ⟨?_, ?_, ?_⟩
  · intro a b
    exact ⟨fun hh => hf _ _ (h.eq_iff.mp hh), fun hh => h.eq_iff.mpr (congrArg f hh)⟩
  · intro a b
    exact h.swap_eq _ _
  · intro a b d h1 h2
    exact h.lt_trans h1 h2

theorem lawful_cmpChar : LawfulCmp cmpChar :=
  lawful_cmpNat.comap Char.toNat (fun x y h => Char.ext (UInt32.ext h))

theorem lawful_cmpList {c : α → α → Ordering} (hc : LawfulCmp c) : LawfulCmp (cmpList c) := by
  refine ⟨?_, ?_, ?_⟩
  · intro l1
    induction l1 with
    | nil => intro l2; cases l2 <;> simp [cmpList]
    | cons a as ih =>
      intro l2
      cases l2 with
      | nil => simp [cmpList]
      | cons b bs =>
        simp only [cmpList]
        cases hab : c a b with
        | lt =>
          simp only []
          constructor
          · intro h; simp at h
          · intro h
            injection h with h1 h2
            rw [h1] at hab
            rw [hc.eq_iff.mpr rfl] at hab
            simp at hab
        | gt =>
          simp only []
          constructor
          · intro h; simp at h
          · intro h
            injection h with h1 h2
            rw [h1] at hab
            rw [hc.eq_iff.mpr rfl] at hab
            simp at hab
        | eq =>
          simp only []
          have hab' : a = b := hc.eq_iff.mp hab
          subst hab'
          rw [@ih bs]
          simp
  · intro l1
    induction l1 with
    | nil => intro l2; cases l2 <;> simp [cmpList, Ordering.swap]
    | cons a as ih =>
      intro l2
      cases l2 with
      | nil => simp [cmpList, Ordering.swap]
      | cons b bs =>
        simp only [cmpList]
        cases hab : c a b with
        | lt =>
          have hba : c b a = .gt := by
            have := hc.swap_eq a b
            rw [hab] at this
            exact this.symm
          rw [hba]
          rfl
        | gt =>
          have hba : c b a = .lt := by
            have := hc.swap_eq a b
            rw [hab] at this
            exact this.symm
          rw [hba]
          rfl
        | eq =>
          have hba : c b a = .eq := by
            have := hc.swap_eq a b
            rw [hab] at this
            exact this.symm
          rw [hba]
          exact ih bs
  · intro l1
    induction l1 with
    | nil =>
      intro l2 l3 h1 h2
      cases l2 with
      | nil => exact h2
      | cons b bs =>
        cases l3 with
        | nil => simp [cmpList] at h2
        | cons d ds => simp [cmpList]
    | cons a as ih =>
      intro l2 l3 h1 h2
      cases l2 with
      | nil => simp [cmpList] at h1
      | cons b bs =>
        cases l3 with
        | nil => simp [cmpList] at h2
        | cons d ds =>
          simp only [cmpList] at h1 h2 ⊢
          cases hab : c a b with
          | gt => rw [hab] at h1; simp at h1
          | lt =>
            rw [hab] at h1
            cases hbd : c b d with
            | gt => rw [hbd] at h2; simp at h2
            | lt =>
              rw [hc.lt_trans hab hbd]
            | eq =>
              have : b = d := hc.eq_iff.mp hbd
              subst this
              rw [hab]
          | eq =>
            rw [hab] at h1
            have : a = b := hc.eq_iff.mp hab
            subst this
            cases hbd : c a d with
            | gt => rw [hbd] at h2; simp at h2
            | lt => rfl
            | eq =>
              rw [hbd] at h2
              exact ih h1 h2

theorem lawful_cmpProd {cf : α → α → Ordering} {cs : β → β → Ordering}
    (hf : LawfulCmp cf) (hs : LawfulCmp cs) : LawfulCmp (cmpProd cf cs) := by
  refine ⟨?_, ?_, ?_⟩
  · intro p q
    simp only [cmpProd]
    cases hab : cf p.1 q.1 with
    | lt =>
      simp only []
      constructor
      · intro h; simp at h
      · intro h
        rw [h] at hab
        rw [hf.eq_iff.mpr rfl] at hab
        simp at hab
    | gt =>
      simp only []
      constructor
      · intro h; simp at h
      · intro h
        rw [h] at hab
        rw [hf.eq_iff.mpr rfl] at hab
        simp at hab
    | eq =>
      simp only []
      have h1 : p.1 = q.1 := hf.eq_iff.mp hab
      constructor
      · intro h
        have h2 : p.2 = q.2 := hs.eq_iff.mp h
        exact Prod.ext h1 h2
      · intro h
        exact hs.eq_iff.mpr (congrArg Prod.snd h)
  · intro p q
    simp only [cmpProd]
    cases hab : cf p.1 q.1 with
    | lt =>
      have hba : cf q.1 p.1 = .gt := by
        have := hf.swap_eq p.1 q.1
        rw [hab] at this
        exact this.symm
      rw [hba]
      rfl
    | gt =>
      have hba : cf q.1 p.1 = .lt := by
        have := hf.swap_eq p.1 q.1
        rw [hab] at this
        exact this.symm
      rw [hba]
      rfl
    | eq =>
      have hba : cf q.1 p.1 = .eq := by
        have := hf.swap_eq p.1 q.1
        rw [hab] at this
        exact this.symm
      rw [hba]
      exact hs.swap_eq _ _
  · intro p q r h1 h2
    simp only [cmpProd] at h1 h2 ⊢
    cases hab : cf p.1 q.1 with
    | gt => rw [hab] at h1; simp at h1
    | lt =>
      rw [hab] at h1
      cases hbd : cf q.1 r.1 with
      | gt => rw [hbd] at h2; simp at h2
      | lt => rw [hf.lt_trans hab hbd]
      | eq =>
        have : q.1 = r.1 := hf.eq_iff.mp hbd
        rw [← this, hab]
    | eq =>
      rw [hab] at h1
      have : p.1 = q.1 := hf.eq_iff.mp hab
      rw [this]
      cases hbd : cf q.1 r.1 with
      | gt => rw [hbd] at h2; simp at h2
      | lt => rfl
      | eq =>
        rw [hbd] at h2
        exact hs.lt_trans h1 h2

theorem lawful_cmpStr : LawfulCmp cmpStr :=
  (lawful_cmpList lawful_cmpChar).comap String.data
    (fun x y h => by cases x; cases y; exact congrArg String.mk (by simpa using h))

theorem lawful_pairCmp : LawfulCmp (cmpProd cmpStr cmpStr) :=
  lawful_cmpProd lawful_cmpStr lawful_cmpStr

theorem lawful_keyCmp : LawfulCmp keyCmp :=
  lawful_cmpProd (lawful_cmpProd (lawful_cmpList lawful_cmpNat) lawful_cmpStr)
    (lawful_cmpProd lawful_cmpStr (lawful_cmpList lawful_pairCmp))

theorem sigKey_inj (x y : AtomSignature) (h : sigKey x = sigKey y) : x = y := by
  cases x
  cases y
  simp only [sigKey, Prod.mk.injEq] at h
  obtain ⟨⟨h1, h2⟩, h3, h4⟩ := h
  simp_all

theorem lawful_sigCmp : LawfulCmp sigCmp :=
  lawful_keyCmp.comap sigKey sigKey_inj

theorem cmpLE_total {c : α → α → Ordering} (h : LawfulCmp c) (a b : α) :
    c a b ≠ .gt ∨ c b a ≠ .gt := by
  cases hab : c a b with
  | lt => left; simp
  | eq => left; simp
  | gt =>
    right
    have := h.swap_eq a b
    rw [hab] at this
    rw [← this]
    decide

theorem cmpLE_trans {c : α → α → Ordering} (h : LawfulCmp c) {a b d : α}
    (h1 : c a b ≠ .gt) (h2 : c b d ≠ .gt) : c a d ≠ .gt := by
  cases hab : c a b with
  | gt => exact absurd hab h1
  | eq =>
    have : a = b := h.eq_iff.mp hab
    subst this
    exact h2
  | lt =>
    cases hbd : c b d with
    | gt => exact absurd hbd h2
    | eq =>
      have : b = d := h.eq_iff.mp hbd
      subst this
      rw [hab]
      simp
    | lt =>
      rw [h.lt_trans hab hbd]
      simp

theorem cmpLE_antisymm {c : α → α → Ordering} (h : LawfulCmp c) {a b : α}
    (h1 : c a b ≠ .gt) (h2 : c b a ≠ .gt) : a = b := by
  cases hab : c a b with
  | eq => exact h.eq_iff.mp hab
  | gt => exact absurd hab h1
  | lt =>
    have := h.swap_eq a b
    rw [hab] at this
    exact absurd this.symm h2

theorem fromAtoms_sorted (l : List AtomInput) :
    List.Sorted sigLE (MoleculeSignature.fromAtoms l).atoms := by
  haveI : IsTotal AtomSignature sigLE := ⟨fun a b => cmpLE_total lawful_sigCmp a b⟩
  haveI : IsTrans AtomSignature sigLE := ⟨fun _ _ _ h1 h2 => cmpLE_trans lawful_sigCmp h1 h2⟩
  exact List.sorted_insertionSort sigLE (l.map mkFresh)

theorem fromAtoms_perm_eq (l₁ l₂ : List AtomInput) (h : l₁.Perm l₂) :
    MoleculeSignature.fromAtoms l₁ = MoleculeSignature.fromAtoms l₂ := by
  haveI : IsTotal AtomSignature sigLE := ⟨fun a b => cmpLE_total lawful_sigCmp a b⟩
  haveI : IsTrans AtomSignature sigLE := ⟨fun _ _ _ h1 h2 => cmpLE_trans lawful_sigCmp h1 h2⟩
  haveI : IsAntisymm AtomSignature sigLE := ⟨fun _ _ h1 h2 => cmpLE_antisymm lawful_sigCmp h1 h2⟩
  have hperm : (List.insertionSort sigLE (l₁.map mkFresh)).Perm
      (List.insertionSort sigLE (l₂.map mkFresh)) :=
    ((List.perm_insertionSort sigLE (l₁.map mkFresh)).trans (h.map mkFresh)).trans
      (List.perm_insertionSort sigLE (l₂.map mkFresh)).symm
  have := List.eq_of_perm_of_sorted hperm
    (List.sorted_insertionSort sigLE (l₁.map mkFresh))
    (List.sorted_insertionSort sigLE (l₂.map mkFresh))
  exact congrArg MoleculeSignature.mk this

theorem mkLevel_perm_eq (p₁ p₂ : List (String × String)) (h : p₁.Perm p₂) :
    mkLevel p₁ = mkLevel p₂ := by
  haveI : IsTotal (String × String) pairLE := ⟨fun a b => cmpLE_total lawful_pairCmp a b⟩
  haveI : IsTrans (String × String) pairLE := ⟨fun _ _ _ h1 h2 => cmpLE_trans lawful_pairCmp h1 h2⟩
  haveI : IsAntisymm (String × String) pairLE := ⟨fun _ _ h1 h2 => cmpLE_antisymm lawful_pairCmp h1 h2⟩
  have hperm : (List.insertionSort pairLE p₁).Perm (List.insertionSort pairLE p₂) :=
    ((List.perm_insertionSort pairLE p₁).trans h).trans (List.perm_insertionSort pairLE p₂).symm
  exact List.eq_of_perm_of_sorted hperm
    (List.sorted_insertionSort pairLE p₁)
    (List.sorted_insertionSort pairLE p₂)

/-- C2: signature output never depends on input atom indexing — re-numbering
the atoms (any permutation of the per-atom inputs) yields the same
MoleculeSignature and a bit-identical canonical string, and an environment
level built from a permuted set of `(bond, neighbor)` renderings is the same
canonical level. -/
theorem C2_order_independence :
    (∀ l₁ l₂ : List AtomInput, l₁.Perm l₂ →
      MoleculeSignature.fromAtoms l₁ = MoleculeSignature.fromAtoms l₂ ∧
      (MoleculeSignature.fromAtoms l₁).to_string false
        = (MoleculeSignature.fromAtoms l₂).to_string false) ∧
    (∀ p₁ p₂ : List (String × String), p₁.Perm p₂ → mkLevel p₁ = mkLevel p₂) := by
  constructor
  · intro l₁ l₂ h
    have heq := fromAtoms_perm_eq l₁ l₂ h
    exact ⟨heq, by rw [heq]⟩
  · exact mkLevel_perm_eq

/-- C2 witness: swapping the two methanol atoms before construction leaves
the signature and its canonical string unchanged, likewise a swapped
environment level. -/
theorem C2_order_independence_witness :
    (MoleculeSignature.fromAtoms [coCarbonInput, coOxygenInput]
        = MoleculeSignature.fromAtoms [coOxygenInput, coCarbonInput] ∧
      (MoleculeSignature.fromAtoms [coCarbonInput, coOxygenInput]).to_string false
        = (MoleculeSignature.fromAtoms [coOxygenInput, coCarbonInput]).to_string false) ∧
    mkLevel [("SINGLE", "[O;H1;h1;D1;X2]"), ("DOUBLE", "[C;H3;h3;D1;X4]")]
      = mkLevel [("DOUBLE", "[C;H3;h3;D1;X4]"), ("SINGLE", "[O;H1;h1;D1;X2]")] :=
  ⟨C2_order_independence.1 _ _ (List.Perm.swap coOxygenInput coCarbonInput []),
   C2_order_independence.2 _ _
     (List.Perm.swap ("DOUBLE", "[C;H3;h3;D1;X4]") ("SINGLE", "[O;H1;h1;D1;X2]") [])⟩

/-- C5 counterexample: the methyl-formate signature recorded in the notebook
is not ordered by ascending root string — its first atom root starts with
`[O` while the second starts with `[C`. -/
theorem C5_root_sort_counterexample :
    ¬ List.Sorted strLE ((MoleculeSignature.fromAtoms cocoInputs).atoms.map
      AtomSignature.root) := by decide

/-- C5 amended: the atomic signatures of a MoleculeSignature are sorted
ascending on the full canonical key — the `(morgans, root, root_minus,
neighbors)` tuple with the `morgans` bit tuple compared numerically first —
not on the root string alone and not by input atom index. -/
theorem C5_canonical_key_sort (l : List AtomInput) :
    List.Sorted sigLE (MoleculeSignature.fromAtoms l).atoms :=
  fromAtoms_sorted l

/-- C10: every freshly constructed MoleculeSignature has, in each contained
AtomSignature, the literal string `"None"` as `root_minus` and an empty
neighbor list. -/
theorem C10_fresh_fields (l : List AtomInput) :
    ∀ a ∈ (MoleculeSignature.fromAtoms l).atoms,
      a.root_minus = "None" ∧ a.neighbors = [] := by
  intro a ha
  have hmem : a ∈ l.map mkFresh :=
    ((List.perm_insertionSort sigLE (l.map mkFresh)).mem_iff).mp ha
  obtain ⟨i, _, rfl⟩ := List.mem_map.mp hmem
  exact ⟨rfl, rfl⟩

/-- C10 witness: the oxygen signature of methanol, as found inside the
freshly built molecule signature. -/
theorem C10_fresh_fields_witness :
    (mkFresh coOxygenInput).root_minus = "None" ∧ (mkFresh coOxygenInput).neighbors = [] :=
  C10_fresh_fields coInputs (mkFresh coOxygenInput) (by decide)

/-- C6 counterexample: in the recorded methyl-formate expansion, the
carbonyl oxygen's neighbor entry records the pattern
`[O;H0;h0;D1;X1]=[C;H1;h1;D2;X3:1]-[O;H0;h0;D2;X2]` — a string that is not
the root string of any sibling AtomSignature (those are the four full
radius-2 roots). -/
theorem C6_neighbor_root_counterexample :
    ("DOUBLE", "[O;H0;h0;D1;X1]=[C;H1;h1;D2;X3:1]-[O;H0;h0;D2;X2]")
        ∈ ((post_compute_neighbors cocoCtx).map AtomSignature.neighbors).join ∧
    "[O;H0;h0;D1;X1]=[C;H1;h1;D2;X3:1]-[O;H0;h0;D2;X2]"
        ∉ (post_compute_neighbors cocoCtx).map AtomSignature.root := by decide

set_option maxRecDepth 4000 in
/-- C6 amended: neighbor expansion is one-level and records, per incident
bond, the bond tag with the bonded atom's reduced-radius (radius `R-1`)
pattern — the root shown in the sibling's own with-neighbors export — so the
with-neighbors exports of methyl formate are exactly the four recorded
strings and every recorded neighbor pattern is some sibling's reduced-radius
pattern. -/
theorem C6_neighbor_minus_root :
    ((post_compute_neighbors cocoCtx).map fun a => a.to_string true)
      = ["650-1004 ## [C;H1;h1;D2;X3]=[O;H0;h0;D1;X1:1] && DOUBLE <> [O;H0;h0;D1;X1]=[C;H1;h1;D2;X3:1]-[O;H0;h0;D2;X2]",
         "694-287-1276 ## [O;H0;h0;D1;X1]=[C;H1;h1;D2;X3:1]-[O;H0;h0;D2;X2] && DOUBLE <> [C;H1;h1;D2;X3]=[O;H0;h0;D1;X1:1] && SINGLE <> [C;H1;h1;D2;X3]-[O;H0;h0;D2;X2:1]-[C;H3;h3;D1;X4]",
         "695-1874 ## [C;H1;h1;D2;X3]-[O;H0;h0;D2;X2:1]-[C;H3;h3;D1;X4] && SINGLE <> [O;H0;h0;D1;X1]=[C;H1;h1;D2;X3:1]-[O;H0;h0;D2;X2] && SINGLE <> [O;H0;h0;D2;X2]-[C;H3;h3;D1;X4:1]",
         "1057-841 ## [O;H0;h0;D2;X2]-[C;H3;h3;D1;X4:1] && SINGLE <> [C;H1;h1;D2;X3]-[O;H0;h0;D2;X2:1]-[C;H3;h3;D1;X4]"] ∧
    ((post_compute_neighbors cocoCtx).all fun a =>
      a.neighbors.all fun bn => decide (bn.2 ∈ cocoCtx.map CtxAtom.minusRoot)) = true := by
  decide

/-- C7 counterexample: at radius 2 the claim demands a `2 + 1`-entry bit
tuple for every atom, but the methanol carbon's recorded tuple is the single
bit `1057`. -/
theorem C7_morgans_length_counterexample :
    (mkFresh coCarbonInput).morgans = [1057] ∧
    ((MoleculeSignature.fromAtoms coInputs).atoms.all
      fun a => a.morgans.length == 2 + 1) = false := by decide

/-- C7 amended: a radius-2 `morgans` tuple is non-empty and has at most
`2 + 1` entries (levels whose environment produces no new fingerprint bit
contribute no entry), as every recorded atom of methanol, methyl formate and
ethanol shows. -/
theorem C7_morgans_length_bounds :
    (((MoleculeSignature.fromAtoms coInputs).atoms
        ++ (MoleculeSignature.fromAtoms cocoInputs).atoms
        ++ (MoleculeSignature.fromAtoms ccoInputs).atoms).all
      fun a => decide (1 ≤ a.morgans.length ∧ a.morgans.length ≤ 2 + 1)) = true := by decide

/-- C8 counterexample: filling an alphabet from methanol does give exactly
two entries, but the claim's attribution is swapped — the strings it
predicts (bit tuple `807-1155` on the carbon-rooted pattern, `1057` on the
oxygen-rooted pattern) are not in the filled alphabet. -/
theorem C8_attribution_counterexample :
    coFilled.size = 2 ∧
    "807-1155 ## [O;H1;h1;D1;X2]-[C;H3;h3;D1;X4:1]" ∉ coFilled.Dict ∧
    "1057 ## [C;H3;h3;D1;X4]-[O;H1;h1;D1;X2:1]" ∉ coFilled.Dict := by decide

/-- C8 amended: `fill` on methanol alone (radius 2, 2048 bits, no stereo)
yields an alphabet of size exactly 2, one entry per heavy atom, with the
oxygen atom's bit tuple being `807-1155` and the carbon atom's being
`1057`. -/
theorem C8_fill_methanol :
    coFilled.size = 2 ∧
    coFilled.Dict = {"807-1155 ## [C;H3;h3;D1;X4]-[O;H1;h1;D1;X2:1]",
                     "1057 ## [O;H1;h1;D1;X2]-[C;H3;h3;D1;X4:1]"} ∧
    coOxygenInput.element = "O" ∧
    (mkFresh coOxygenInput).to_string false = "807-1155 ## [C;H3;h3;D1;X4]-[O;H1;h1;D1;X2:1]" ∧
    coCarbonInput.element = "C" ∧
    (mkFresh coCarbonInput).to_string false = "1057 ## [O;H1;h1;D1;X2]-[C;H3;h3;D1;X4:1]" := by
  decide

/-- C3: for alphabets of identical configuration, merge is commutative and
associative, and merging with an empty alphabet of the same configuration is
the identity. -/
theorem C3_merge_laws (a b c : SignatureAlphabet) :
    (compatible_alphabets a b = true → merge_alphabets a b = merge_alphabets b a) ∧
    (compatible_alphabets a b = true → compatible_alphabets b c = true →
      (merge_alphabets a b).bind (fun m => merge_alphabets m c)
        = (merge_alphabets b c).bind (fun m => merge_alphabets a m)) ∧
    merge_alphabets a (emptyAlphabet a.radius a.nBits a.use_stereo) = .ok a := by
  obtain ⟨ar, an, as', ad⟩ := a
  obtain ⟨br, bn, bs', bd⟩ := b
  obtain ⟨cr, cn, cs', cd⟩ := c
  refine ⟨?_, ?_, ?_⟩
  · intro h
    simp only [compatible_alphabets, Bool.and_eq_true, beq_iff_eq] at h
    obtain ⟨⟨h1, h2⟩, h3⟩ := h
    subst h1; subst h2; subst h3
    simp [merge_alphabets, compatible_alphabets, Finset.union_comm]
  · intro hab hbc
    simp only [compatible_alphabets, Bool.and_eq_true, beq_iff_eq] at hab hbc
    obtain ⟨⟨h1, h2⟩, h3⟩ := hab
    obtain ⟨⟨h4, h5⟩, h6⟩ := hbc
    subst h1; subst h2; subst h3; subst h4; subst h5; subst h6
    simp [merge_alphabets, compatible_alphabets, Except.bind, Finset.union_assoc]
  · simp [merge_alphabets, compatible_alphabets, emptyAlphabet]

/-- C3 witness: the three merge laws evaluated on concrete compatible
alphabets. -/
theorem C3_merge_laws_witness :
    merge_alphabets alphaX alphaY = merge_alphabets alphaY alphaX ∧
    (merge_alphabets alphaX alphaY).bind (fun m => merge_alphabets m alphaW)
      = (merge_alphabets alphaY alphaW).bind (fun m => merge_alphabets alphaX m) ∧
    merge_alphabets alphaX (emptyAlphabet alphaX.radius alphaX.nBits alphaX.use_stereo)
      = .ok alphaX :=
  ⟨(C3_merge_laws alphaX alphaY alphaW).1 (by decide),
   (C3_merge_laws alphaX alphaY alphaW).2.1 (by decide) (by decide),
   (C3_merge_laws alphaX alphaY alphaW).2.2⟩

/-- C4: `compatible_alphabets` is true exactly when the three configuration
fields agree, and merging alphabets that differ in at least one of
radius, bit width or stereo flag fails with the incompatibility error,
producing no merged alphabet. -/
theorem C4_compatibility_gate (a b : SignatureAlphabet) :
    (compatible_alphabets a b = true ↔
      (a.radius = b.radius ∧ a.nBits = b.nBits ∧ a.use_stereo = b.use_stereo)) ∧
    (¬(a.radius = b.radius ∧ a.nBits = b.nBits ∧ a.use_stereo = b.use_stereo) →
      merge_alphabets a b = .error .incompatible) := by
  constructor
  · simp [compatible_alphabets, Bool.and_eq_true, beq_iff_eq, and_assoc]
  · intro h
    have hfalse : compatible_alphabets a b ≠ true := by
      intro hc
      simp only [compatible_alphabets, Bool.and_eq_true, beq_iff_eq] at hc
      exact h ⟨hc.1.1, hc.1.2, hc.2⟩
    simp [merge_alphabets, hfalse]

/-- C4 witness: two alphabets differing in radius are incompatible and their
merge is the incompatibility error. -/
theorem C4_compatibility_gate_witness :
    merge_alphabets alphaX alphaZ = .error .incompatible ∧
    (compatible_alphabets alphaX alphaZ = true ↔
      (alphaX.radius = alphaZ.radius ∧ alphaX.nBits = alphaZ.nBits ∧
        alphaX.use_stereo = alphaZ.use_stereo)) :=
  ⟨(C4_compatibility_gate alphaX alphaZ).2 (by decide),
   (C4_compatibility_gate alphaX alphaZ).1⟩
